import Mathlib

/-!
Verification of the coverage-signal tracker (`Cover` in package `fuzzer`) and
the corpus scheduler (`ProgramsList` in package `corpus`) of a syzkaller fork.

The external `pkg/signal` ADT is not part of the sources; its operations are
modelled from the specification (a priority-tagged set of coverage events).
Coverage events are `uint64` program counters, embedded as `Nat` (only
comparisons are performed on them, so no wrap-around is involved); priorities
(`uint8`) are embedded as `Nat`; the scheduler's `int64` priority sums are
embedded as `Int` (the sums stay far below `2^63` for any feasible corpus,
so overflow does not matter for the claims considered here).

The sources contain two revisions of `ProgramsList`: the current one keeps a
protected `ioUringProgs` pool and a plain floored weight, the earlier one has
no protected pool and instead multiplies the weight by `100000` for io_uring
programs.  Both are embedded (`ProgramsList` / `ProgramsListV1`).
-/

/-! ## Coverage tracker: definitions -/

/-- Modelled from the spec: the external coverage-signal ADT (`pkg/signal`,
not under the provided sources) is an opaque set of coverage-event
identifiers, each tagged with a priority from the observation that produced
it.  We embed it as a partial map from event identifiers to priorities. -/
abbrev Signal : Type := Nat → Option Nat

/-- Modelled from the spec: the empty signal (also stands for Go's `nil`
signal map, which behaves as the empty one). -/
def emptySignal : Signal := fun _ => none

/-- Pointwise combination used by signal merge: keep the element if present on
either side, at the higher of the two priorities. -/
def mergePrio : Option Nat → Option Nat → Option Nat
  | none, q => q
  | some p, none => some p
  | some p, some q => some (max p q)

/-- Modelled from the spec: `Signal.Merge` is set union, where a
higher-priority observation overrides a previously lower-confidence record of
the same event. -/
def Merge (s t : Signal) : Signal := fun e => mergePrio (s e) (t e)

/-- A raw event would enter the diff against `s`: it is absent from `s` or
recorded there at a lower priority than the observation tag `prio`. -/
def belowPrio (s : Signal) (prio e : Nat) : Bool :=
  match s e with
  | some p => decide (p < prio)
  | none => true

/-- Modelled from the spec: `Signal.DiffRaw` computes, from a raw trace, the
sub-signal of events not already present in `s` (or present only at a lower
priority), all tagged with the observation priority `prio`. -/
def DiffRaw (s : Signal) (raw : List Nat) (prio : Nat) : Signal :=
  fun e => if e ∈ raw then (if belowPrio s prio e then some prio else none) else none

/-- Modelled from the spec: the emptiness test of the diff signal
(`diff.Empty()` in the source), computed over the finite raw trace. -/
def diffEmptyB (s : Signal) (raw : List Nat) (prio : Nat) : Bool :=
  raw.all fun e => ! belowPrio s prio e

/-- State of the coverage tracker: `maxSignal` is the signal known to the
fuzzer (including flakes), `newSignal` the newly identified max signal not yet
drained. -/
structure Cover where
  maxSignal : Signal
  newSignal : Signal

/-- The initial tracker: nothing known, nothing pending. -/
def initialCover : Cover := ⟨emptySignal, emptySignal⟩

/-- Lower bound of the hardcoded fs address range in `filterFsSignal`. -/
def fsLo : Nat := 0xffffffff81f7db10

/-- Upper bound of the hardcoded fs address range in `filterFsSignal`. -/
def fsHi : Nat := 0xffffffff81fb3e69

/-- `filterFsSignal` keeps only the raw events inside the hardcoded address
range. -/
def filterFsSignal (signal : List Nat) : List Nat :=
  signal.filter fun cover => decide (fsLo ≤ cover ∧ cover ≤ fsHi)

/-- `Cover.AddMaxSignal`: merge a signal that should no longer be chased into
`maxSignal`; `newSignal` is untouched. -/
def AddMaxSignal (c : Cover) (sign : Signal) : Cover :=
  ⟨Merge c.maxSignal sign, c.newSignal⟩

/-- `Cover.addRawMaxSignal`: filter the raw trace, diff it against
`maxSignal`; if the diff is empty return it with no state change, otherwise
merge it into both `maxSignal` and `newSignal` and return it. -/
def addRawMaxSignal (c : Cover) (signal : List Nat) (prio : Nat) : Signal × Cover :=
  let fsSignal := filterFsSignal signal
  let diff := DiffRaw c.maxSignal fsSignal prio
  if diffEmptyB c.maxSignal fsSignal prio then (diff, c)
  else (diff, ⟨Merge c.maxSignal diff, Merge c.newSignal diff⟩)

/-- `Cover.GrabSignalDelta`: return `newSignal` and reset it to the empty
(nil) signal; `maxSignal` is untouched. -/
def GrabSignalDelta (c : Cover) : Signal × Cover :=
  (c.newSignal, ⟨c.maxSignal, emptySignal⟩)

/-- The tracker operations a client can invoke. -/
inductive CoverOp where
  | addMax (sign : Signal)
  | ingest (raw : List Nat) (prio : Nat)
  | grab

/-- One step of the tracker. -/
def stepCover (c : Cover) : CoverOp → Cover
  | CoverOp.addMax s => AddMaxSignal c s
  | CoverOp.ingest raw prio => (addRawMaxSignal c raw prio).2
  | CoverOp.grab => (GrabSignalDelta c).2

/-- Run a sequence of tracker operations from the initial empty state. -/
def applyCoverOps (ops : List CoverOp) : Cover :=
  ops.foldl stepCover initialCover

/-- Run a sequence of `addRawMaxSignal` calls, collecting the returned
deltas. -/
def runIngests (c : Cover) : List (List Nat × Nat) → List Signal × Cover
  | [] => ([], c)
  | (raw, prio) :: rest =>
      let r := addRawMaxSignal c raw prio
      let rr := runIngests r.2 rest
      (r.1 :: rr.1, rr.2)

/-- The union (signal merge) of a list of deltas. -/
def mergeAll (ds : List Signal) : Signal := ds.foldl Merge emptySignal

/-- The tracker invariant of interest: every pending event is known. -/
def CoverInv (c : Cover) : Prop :=
  ∀ e, (c.newSignal e).isSome = true → (c.maxSignal e).isSome = true

/-! ## Corpus scheduler: definitions -/

/-- Lower bound of the hardcoded io_uring address range in `saveProgram`. -/
def ioUringLo : Nat := 0xffffffff81ba06ed

/-- Upper bound of the hardcoded io_uring address range in `saveProgram`. -/
def ioUringHi : Nat := 0xffffffff81bd1636

/-- Modelled from the spec: the corpus scheduler only inspects an admitted
program's signal through its set of coverage-event keys (for the size `|S|`
and the target-region intersection test), so the scheduler-side view of the
external signal ADT is embedded as a finite set of event identifiers. -/
abbrev SchedSignal : Type := Finset Nat

/-- The current revision of the scheduler state (`ProgramsList` with the
protected `ioUringProgs` pool).  `P` is the opaque type of programs
(`*prog.Prog` in the source). -/
structure ProgramsList (P : Type) where
  progs : List P
  ioUringProgs : List P
  sumPrios : Int
  accPrios : List Int

/-- A scheduler with zero admitted programs (the Go zero value). -/
def emptyPL (P : Type) : ProgramsList P := ⟨[], [], 0, []⟩

/-- The earlier revision of the scheduler state, without the protected
subset. -/
structure ProgramsListV1 (P : Type) where
  progs : List P
  sumPrios : Int
  accPrios : List Int

/-- An empty scheduler of the earlier revision. -/
def emptyPLV1 (P : Type) : ProgramsListV1 P := ⟨[], 0, []⟩

/-- `saveProgram` of the current revision: weight `max(1, |S|)`, append to
`progs`/`accPrios`, and additionally append to the protected `ioUringProgs`
pool when the signal intersects the io_uring address range. -/
def saveProgram {P : Type} (pl : ProgramsList P) (p : P) (signal : SchedSignal) :
    ProgramsList P :=
  let ioUringFlag : Bool := decide (∃ c ∈ signal, ioUringLo ≤ c ∧ c ≤ ioUringHi)
  let prio : Int := if (signal.card : Int) = 0 then 1 else (signal.card : Int)
  { progs := pl.progs ++ [p]
    ioUringProgs := if ioUringFlag then pl.ioUringProgs ++ [p] else pl.ioUringProgs
    sumPrios := pl.sumPrios + prio
    accPrios := pl.accPrios ++ [pl.sumPrios + prio] }

/-- `saveProgram` of the earlier revision: same floored weight, but multiplied
by `100000` when the signal intersects the io_uring address range, and no
protected pool. -/
def saveProgramV1 {P : Type} (pl : ProgramsListV1 P) (p : P) (signal : SchedSignal) :
    ProgramsListV1 P :=
  let ioUringFlag : Bool := decide (∃ c ∈ signal, ioUringLo ≤ c ∧ c ≤ ioUringHi)
  let prio0 : Int := if (signal.card : Int) = 0 then 1 else (signal.card : Int)
  let prio : Int := if ioUringFlag then prio0 * 100000 else prio0
  { progs := pl.progs ++ [p]
    sumPrios := pl.sumPrios + prio
    accPrios := pl.accPrios ++ [pl.sumPrios + prio] }

/-- `ProgramsList.replace`: copy `sumPrios`, `accPrios` and `progs` from the
replacement state; `ioUringProgs` is not assigned. -/
def replacePL {P : Type} (pl other : ProgramsList P) : ProgramsList P :=
  { progs := other.progs
    ioUringProgs := pl.ioUringProgs
    sumPrios := other.sumPrios
    accPrios := other.accPrios }

/-- Go's `sort.Search` loop: binary search on `[i, j)` for the first index
satisfying `f`, returning `j` when there is none.  The loop is embedded with
structural recursion on a fuel argument; any fuel of at least `j - i` steps
computes the loop exactly. -/
def sortSearchGo (f : Nat → Bool) : Nat → Nat → Nat → Nat
  | 0, i, _ => i
  | fuel + 1, i, j =>
    if i < j then
      if f ((i + j) / 2) then sortSearchGo f fuel i ((i + j) / 2)
      else sortSearchGo f fuel ((i + j) / 2 + 1) j
    else i

/-- `sort.Search(n, f)`: `n` steps of fuel always suffice for the interval
`[0, n)`. -/
def sortSearch (n : Nat) (f : Nat → Bool) : Nat := sortSearchGo f n 0 n

/-- The predicate passed to `sort.Search` in `ChooseProgram`:
`accPrios[i] >= randVal`. -/
def searchPred {P : Type} (pl : ProgramsList P) (randVal : Int) (i : Nat) : Bool :=
  decide (randVal ≤ pl.accPrios.getD i 0)

/-- The index computed by the weighted-sampling binary search of
`ChooseProgram`. -/
def searchIdx {P : Type} (pl : ProgramsList P) (randVal : Int) : Nat :=
  sortSearch pl.accPrios.length (searchPred pl randVal)

/-- Outcome of a `ChooseProgram` call: the nil sentinel, a chosen program, or
an out-of-bounds slice access (a Go panic). -/
inductive ChooseResult (P : Type) where
  | nilProg
  | chosen (p : P)
  | outOfBounds
  deriving DecidableEq

/-- Turn an optional indexed access into a `ChooseResult`; `none` is an
out-of-range slice index, i.e. a panic. -/
def toChoose {P : Type} : Option P → ChooseResult P
  | some p => ChooseResult.chosen p
  | none => ChooseResult.outOfBounds

/-- `ChooseProgram` of the current revision, with the three random draws made
explicit: `randVal` models `r.Int63n(sumPrios+1)`, `coin` models
`rand.Intn(100)`, and `uidx` models `rand.Intn(len(ioUringProgs))`. -/
def chooseProgram {P : Type} (pl : ProgramsList P) (randVal : Int) (coin uidx : Nat) :
    ChooseResult P :=
  if pl.progs.length = 0 then ChooseResult.nilProg
  else
    let idx := searchIdx pl randVal
    if coin < 50 then
      if pl.ioUringProgs.length = 0 then toChoose pl.progs[idx]?
      else toChoose pl.ioUringProgs[uidx]?
    else toChoose pl.progs[idx]?

/-- Scheduler states reachable from the empty scheduler by admissions and
wholesale replaces (with a reachable replacement). -/
inductive SchedReachable {P : Type} : ProgramsList P → Prop where
  | empty : SchedReachable (emptyPL P)
  | save (pl : ProgramsList P) (p : P) (s : SchedSignal) :
      SchedReachable pl → SchedReachable (saveProgram pl p s)
  | repl (pl other : ProgramsList P) :
      SchedReachable pl → SchedReachable other → SchedReachable (replacePL pl other)

/-- Fold a sequence of admissions over a scheduler state. -/
def admitAll {P : Type} (pl : ProgramsList P) (l : List (P × SchedSignal)) :
    ProgramsList P :=
  l.foldl (fun a pr => saveProgram a pr.1 pr.2) pl

/-- The scheduler data invariant: `accPrios` and `progs` have equal length,
`accPrios` is sorted, bounded by `sumPrios`, ends in `sumPrios`, and
`sumPrios` is non-negative. -/
def SchedInv {P : Type} (pl : ProgramsList P) : Prop :=
  pl.accPrios.length = pl.progs.length ∧
  pl.accPrios.Sorted (· ≤ ·) ∧
  (∀ x ∈ pl.accPrios, x ≤ pl.sumPrios) ∧
  pl.accPrios.getLastD 0 = pl.sumPrios ∧
  0 ≤ pl.sumPrios

/-- A concrete reachable state with an empty corpus but a non-empty protected
pool: one io_uring program is admitted and then the whole backing state is
replaced by an empty scheduler, which leaves `ioUringProgs` in place. -/
def replacedPL : ProgramsList Nat :=
  replacePL (saveProgram (emptyPL Nat) 5 {ioUringLo}) (emptyPL Nat)

/-! ## Coverage tracker: lemmas -/

theorem mergePrio_none_right (x : Option Nat) : mergePrio x none = x := by
  cases x <;> rfl

theorem mergePrio_none_left (x : Option Nat) : mergePrio none x = x := rfl

theorem mergePrio_assoc (x y z : Option Nat) :
    mergePrio (mergePrio x y) z = mergePrio x (mergePrio y z) := by
  cases x <;> cases y <;> cases z <;> simp [mergePrio, Nat.max_assoc]

theorem mergePrio_isSome (x y : Option Nat) :
    (mergePrio x y).isSome = (x.isSome || y.isSome) := by
  cases x <;> cases y <;> rfl

theorem diffEmptyB_iff (s : Signal) (raw : List Nat) (prio : Nat) :
    diffEmptyB s raw prio = true ↔ ∀ e, DiffRaw s raw prio e = none := by
  constructor
  · intro h e
    simp only [diffEmptyB, List.all_eq_true] at h
    simp only [DiffRaw]
    by_cases hm : e ∈ raw
    · have := h e hm
      simp only [Bool.not_eq_true'] at this
      simp [hm, this]
    · simp [hm]
  · intro h
    simp only [diffEmptyB, List.all_eq_true]
    intro e hm
    have := h e
    simp only [DiffRaw, if_pos hm] at this
    by_cases hb : belowPrio s prio e
    · simp [hb] at this
    · simp [hb]

theorem addRawMaxSignal_max (c : Cover) (raw : List Nat) (prio : Nat) (e : Nat) :
    (addRawMaxSignal c raw prio).2.maxSignal e
      = mergePrio (c.maxSignal e) ((addRawMaxSignal c raw prio).1 e) := by
  simp only [addRawMaxSignal]
  by_cases h : diffEmptyB c.maxSignal (filterFsSignal raw) prio
  · simp only [h, if_pos, if_true]
    rw [(diffEmptyB_iff _ _ _).mp h e, mergePrio_none_right]
  · simp [h, Merge]

theorem addRawMaxSignal_new (c : Cover) (raw : List Nat) (prio : Nat) (e : Nat) :
    (addRawMaxSignal c raw prio).2.newSignal e
      = mergePrio (c.newSignal e) ((addRawMaxSignal c raw prio).1 e) := by
  simp only [addRawMaxSignal]
  by_cases h : diffEmptyB c.maxSignal (filterFsSignal raw) prio
  · simp only [h, if_pos, if_true]
    rw [(diffEmptyB_iff _ _ _).mp h e, mergePrio_none_right]
  · simp [h, Merge]

theorem addRawMaxSignal_fst (c : Cover) (raw : List Nat) (prio : Nat) :
    (addRawMaxSignal c raw prio).1 = DiffRaw c.maxSignal (filterFsSignal raw) prio := by
  simp only [addRawMaxSignal]
  by_cases h : diffEmptyB c.maxSignal (filterFsSignal raw) prio <;> simp [h]

theorem foldl_merge_point (ds : List Signal) (a : Signal) (e : Nat) :
    (ds.foldl Merge a) e = mergePrio (a e) (mergeAll ds e) := by
  induction ds generalizing a with
  | nil => exact (mergePrio_none_right (a e)).symm
  | cons d ds ih =>
    rw [List.foldl_cons, ih]
    have h2 : mergeAll (d :: ds) e = mergePrio (d e) (mergeAll ds e) := by
      show (ds.foldl Merge (Merge emptySignal d)) e = _
      rw [ih]
      rfl
    rw [h2]
    show mergePrio (mergePrio (a e) (d e)) (mergeAll ds e)
      = mergePrio (a e) (mergePrio (d e) (mergeAll ds e))
    exact mergePrio_assoc _ _ _

theorem mergeAll_cons (d : Signal) (ds : List Signal) (e : Nat) :
    mergeAll (d :: ds) e = mergePrio (d e) (mergeAll ds e) := by
  show (ds.foldl Merge (Merge emptySignal d)) e = _
  rw [foldl_merge_point]
  rfl

theorem runIngests_newSignal (ops : List (List Nat × Nat)) (c : Cover) (e : Nat) :
    (runIngests c ops).2.newSignal e
      = mergePrio (c.newSignal e) (mergeAll (runIngests c ops).1 e) := by
  induction ops generalizing c with
  | nil => exact (mergePrio_none_right (c.newSignal e)).symm
  | cons op rest ih =>
    obtain ⟨raw, prio⟩ := op
    show (runIngests (addRawMaxSignal c raw prio).2 rest).2.newSignal e
      = mergePrio (c.newSignal e)
          (mergeAll ((addRawMaxSignal c raw prio).1 :: (runIngests (addRawMaxSignal c raw prio).2 rest).1) e)
    rw [ih, addRawMaxSignal_new, mergeAll_cons, mergePrio_assoc]

theorem stepCover_inv (c : Cover) (op : CoverOp) (h : CoverInv c) :
    CoverInv (stepCover c op) := by
  cases op with
  | addMax s =>
    intro e he
    simp only [stepCover, AddMaxSignal] at he ⊢
    show (mergePrio (c.maxSignal e) (s e)).isSome = true
    rw [mergePrio_isSome]
    simp only [Bool.or_eq_true]
    exact Or.inl (h e he)
  | ingest raw prio =>
    intro e he
    simp only [stepCover] at he ⊢
    rw [addRawMaxSignal_new, mergePrio_isSome] at he
    rw [addRawMaxSignal_max, mergePrio_isSome]
    simp only [Bool.or_eq_true] at he ⊢
    rcases he with he | he
    · exact Or.inl (h e he)
    · exact Or.inr he
  | grab =>
    intro e he
    simp [stepCover, GrabSignalDelta, emptySignal, Option.isSome] at he

theorem foldl_stepCover_inv (ops : List CoverOp) (c : Cover) (h : CoverInv c) :
    CoverInv (ops.foldl stepCover c) := by
  induction ops generalizing c with
  | nil => exact h
  | cons op rest ih => exact ih (stepCover c op) (stepCover_inv c op h)

theorem initialCover_inv : CoverInv initialCover := by
  intro e he
  simp [initialCover, emptySignal, Option.isSome] at he

/-! ## Corpus scheduler: lemmas -/

theorem sortSearchGo_spec (f : Nat → Bool) (n : Nat)
    (hmono : ∀ a b, a ≤ b → b < n → f a = true → f b = true) :
    ∀ fuel i j, j - i ≤ fuel → i ≤ j → j ≤ n →
      i ≤ sortSearchGo f fuel i j ∧ sortSearchGo f fuel i j ≤ j ∧
      (∀ k, i ≤ k → k < sortSearchGo f fuel i j → f k = false) ∧
      (sortSearchGo f fuel i j < j → f (sortSearchGo f fuel i j) = true) := by
  intro fuel
  induction fuel with
  | zero =>
    intro i j hf hij hjn
    have hji : i = j := by omega
    subst hji
    simp only [sortSearchGo]
    exact ⟨le_refl _, le_refl _, fun k h1 h2 => absurd h2 (by omega),
      fun h => absurd h (by omega)⟩
  | succ fuel ih =>
    intro i j hf hij hjn
    by_cases hlt : i < j
    · simp only [sortSearchGo, if_pos hlt]
      have hm1 : i ≤ (i + j) / 2 := by omega
      have hm2 : (i + j) / 2 < j := by omega
      by_cases hfm : f ((i + j) / 2)
      · rw [if_pos hfm]
        obtain ⟨h1, h2, h3, h4⟩ := ih i ((i + j) / 2) (by omega) hm1 (by omega)
        refine ⟨h1, le_trans h2 (le_of_lt hm2), h3, fun hrj => ?_⟩
        rcases Nat.lt_or_ge (sortSearchGo f fuel i ((i + j) / 2)) ((i + j) / 2) with hr | hr
        · exact h4 hr
        · rw [le_antisymm h2 hr]
          exact hfm
      · rw [if_neg hfm]
        obtain ⟨h1, h2, h3, h4⟩ := ih ((i + j) / 2 + 1) j (by omega) (by omega) hjn
        refine ⟨by omega, h2, fun k hk1 hk2 => ?_, h4⟩
        rcases Nat.lt_or_ge k ((i + j) / 2 + 1) with hk | hk
        · by_contra hc
          have hfk : f k = true := by
            revert hc
            cases f k <;> simp
          have : f ((i + j) / 2) = true := hmono k ((i + j) / 2) (by omega) (by omega) hfk
          exact hfm this
        · exact h3 k hk hk2
    · simp only [sortSearchGo, if_neg hlt]
      have hji : i = j := by omega
      exact ⟨le_refl _, by omega, fun k h1 h2 => absurd h2 (by omega),
        fun h => absurd h (by omega)⟩

theorem sortSearch_spec (f : Nat → Bool) (n : Nat)
    (hmono : ∀ a b, a ≤ b → b < n → f a = true → f b = true) :
    sortSearch n f ≤ n ∧
    (∀ k, k < sortSearch n f → f k = false) ∧
    (sortSearch n f < n → f (sortSearch n f) = true) := by
  obtain ⟨h1, h2, h3, h4⟩ :=
    sortSearchGo_spec f n hmono n 0 n (by omega) (by omega) (le_refl n)
  exact ⟨h2, fun k hk => h3 k (Nat.zero_le k) hk, h4⟩

theorem sorted_getD_mono (l : List Int) (hs : l.Sorted (· ≤ ·)) (a b : Nat)
    (hab : a ≤ b) (hb : b < l.length) : l.getD a 0 ≤ l.getD b 0 := by
  have ha : a < l.length := lt_of_le_of_lt hab hb
  rw [List.getD_eq_getElem?_getD, List.getD_eq_getElem?_getD,
    List.getElem?_eq_getElem ha, List.getElem?_eq_getElem hb]
  rcases Nat.eq_or_lt_of_le hab with h | h
  · subst h
    simp
  · simpa using List.pairwise_iff_get.mp hs ⟨a, ha⟩ ⟨b, hb⟩ h

theorem getLastD_eq_getD (l : List Int) : l.getLastD 0 = l.getD (l.length - 1) 0 := by
  rw [List.getLastD_eq_getLast?, List.getLast?_eq_getElem?, List.getD_eq_getElem?_getD]

theorem savePrio_pos (s : SchedSignal) :
    1 ≤ (if (s.card : Int) = 0 then 1 else (s.card : Int)) := by
  by_cases h : (s.card : Int) = 0
  · simp [h]
  · rw [if_neg h]
    have : 0 ≤ (s.card : Int) := Int.natCast_nonneg _
    omega

theorem floored_card_eq_max (s : SchedSignal) :
    (if (s.card : Int) = 0 then 1 else (s.card : Int)) = max 1 (s.card : Int) := by
  have h : 0 ≤ (s.card : Int) := Int.natCast_nonneg _
  by_cases hc : (s.card : Int) = 0
  · rw [if_pos hc, hc]
    rfl
  · rw [if_neg hc, max_eq_right]
    omega

theorem schedInv_empty (P : Type) : SchedInv (emptyPL P) :=
  ⟨rfl, List.sorted_nil, by simp [emptyPL], rfl, le_refl 0⟩

theorem schedInv_save {P : Type} (pl : ProgramsList P) (p : P) (s : SchedSignal)
    (h : SchedInv pl) : SchedInv (saveProgram pl p s) := by
  obtain ⟨hlen, hsort, hbound, hlast, hpos⟩ := h
  have hw := savePrio_pos s
  set w : Int := if (s.card : Int) = 0 then 1 else (s.card : Int) with hwdef
  refine ⟨?_, ?_, ?_, ?_, ?_⟩
  · simp [saveProgram, hlen]
  · show ((pl.accPrios ++ [pl.sumPrios + w]).Sorted (· ≤ ·))
    rw [List.Sorted, List.pairwise_append]
    refine ⟨hsort, List.pairwise_singleton _ _, fun a ha b hb => ?_⟩
    simp only [List.mem_singleton] at hb
    subst hb
    have := hbound a ha
    omega
  · intro x hx
    show x ≤ pl.sumPrios + w
    rcases List.mem_append.mp hx with hx | hx
    · have := hbound x hx
      omega
    · simp only [List.mem_singleton] at hx
      omega
  · show (pl.accPrios ++ [pl.sumPrios + w]).getLastD 0 = pl.sumPrios + w
    exact List.getLastD_concat _ _ _
  · show 0 ≤ pl.sumPrios + w
    omega

theorem schedInv_replace {P : Type} (pl other : ProgramsList P)
    (h : SchedInv other) : SchedInv (replacePL pl other) := h

theorem schedReachable_inv {P : Type} (pl : ProgramsList P)
    (h : SchedReachable pl) : SchedInv pl := by
  induction h with
  | empty => exact schedInv_empty P
  | save pl p s hr ih => exact schedInv_save pl p s ih
  | repl pl other h1 h2 ih1 ih2 => exact schedInv_replace pl other ih2

theorem schedInv_admitAll {P : Type} (l : List (P × SchedSignal))
    (pl : ProgramsList P) (h : SchedInv pl) : SchedInv (admitAll pl l) := by
  induction l generalizing pl with
  | nil => exact h
  | cons x xs ih => exact ih (saveProgram pl x.1 x.2) (schedInv_save pl x.1 x.2 h)

theorem chooseProgram_spec {P : Type} (pl : ProgramsList P) (hInv : SchedInv pl)
    (hne : pl.progs ≠ []) (randVal : Int) (coin uidx : Nat)
    (hr1 : randVal ≤ pl.sumPrios)
    (hu : pl.ioUringProgs ≠ [] → uidx < pl.ioUringProgs.length) :
    searchIdx pl randVal < pl.progs.length ∧
    randVal ≤ pl.accPrios.getD (searchIdx pl randVal) 0 ∧
    (∀ k, k < searchIdx pl randVal → pl.accPrios.getD k 0 < randVal) ∧
    ((50 ≤ coin ∨ pl.ioUringProgs = []) →
      ∃ q, pl.progs[searchIdx pl randVal]? = some q ∧
        chooseProgram pl randVal coin uidx = ChooseResult.chosen q) ∧
    (coin < 50 → pl.ioUringProgs ≠ [] →
      ∃ q, pl.ioUringProgs[uidx]? = some q ∧
        chooseProgram pl randVal coin uidx = ChooseResult.chosen q) := by
  obtain ⟨hlen, hsort, hbound, hlast, hpos⟩ := hInv
  have hplen : 0 < pl.progs.length := List.length_pos.mpr hne
  have hacclen : 0 < pl.accPrios.length := by omega
  have hmono : ∀ a b, a ≤ b → b < pl.accPrios.length →
      searchPred pl randVal a = true → searchPred pl randVal b = true := by
    intro a b hab hb ha
    simp only [searchPred, decide_eq_true_eq] at ha ⊢
    exact le_trans ha (sorted_getD_mono pl.accPrios hsort a b hab hb)
  obtain ⟨hs1, hs2, hs3⟩ := sortSearch_spec (searchPred pl randVal) pl.accPrios.length hmono
  have hflast : searchPred pl randVal (pl.accPrios.length - 1) = true := by
    simp only [searchPred, decide_eq_true_eq]
    rw [← getLastD_eq_getD, hlast]
    exact hr1
  have hidx : searchIdx pl randVal < pl.accPrios.length := by
    by_contra hc
    have h1 : pl.accPrios.length - 1 < searchIdx pl randVal := by
      simp only [searchIdx, sortSearch] at hc ⊢
      omega
    have := hs2 (pl.accPrios.length - 1) (by simpa [searchIdx] using h1)
    rw [hflast] at this
    simp at this
  have hidxp : searchIdx pl randVal < pl.progs.length := by omega
  have hge : randVal ≤ pl.accPrios.getD (searchIdx pl randVal) 0 := by
    have := hs3 (by simpa [searchIdx] using hidx)
    simpa only [searchPred, decide_eq_true_eq] using this
  have hlt : ∀ k, k < searchIdx pl randVal → pl.accPrios.getD k 0 < randVal := by
    intro k hk
    have := hs2 k (by simpa [searchIdx] using hk)
    simp only [searchPred, decide_eq_false_iff_not, decide_eq_true_eq] at this
    omega
  have hL : ¬ pl.progs.length = 0 := by omega
  have hqmain : pl.progs[searchIdx pl randVal]?
      = some (pl.progs.get ⟨searchIdx pl randVal, hidxp⟩) :=
    List.getElem?_eq_getElem hidxp
  refine ⟨hidxp, hge, hlt, ?_, ?_⟩
  · intro hcase
    refine ⟨pl.progs.get ⟨searchIdx pl randVal, hidxp⟩, hqmain, ?_⟩
    rcases hcase with hcoin | hio
    · simp only [chooseProgram, if_neg hL, if_neg (by omega : ¬ coin < 50), hqmain, toChoose]
    · by_cases hcoin : coin < 50
      · have hioL : pl.ioUringProgs.length = 0 := by simp [hio]
        simp only [chooseProgram, if_neg hL, if_pos hcoin, if_pos hioL, hqmain, toChoose]
      · simp only [chooseProgram, if_neg hL, if_neg hcoin, hqmain, toChoose]
  · intro hcoin hione
    have hulen : uidx < pl.ioUringProgs.length := hu hione
    have hioL : ¬ pl.ioUringProgs.length = 0 := by
      have := List.length_pos.mpr hione
      omega
    have hq : pl.ioUringProgs[uidx]? = some (pl.ioUringProgs.get ⟨uidx, hulen⟩) :=
      List.getElem?_eq_getElem hulen
    refine ⟨pl.ioUringProgs.get ⟨uidx, hulen⟩, hq, ?_⟩
    simp only [chooseProgram, if_neg hL, if_pos hcoin, if_neg hioL, hq, toChoose]

/-! ## Claim theorems -/

/-- C1 (amended): in the revision that maintains the protected subset,
`saveProgram` assigns weight `w = max(1, |S|)`, adds exactly `w` to
`sumPrios` and appends the new `sumPrios` to `accPrios`, independently of
whether `S` intersects the io_uring target region; in the earlier revision
the weight is additionally multiplied by `100000` exactly when `S` intersects
that region. -/
theorem saveProgram_weight {P : Type} (pl : ProgramsList P) (p : P) (s : SchedSignal) :
    (saveProgram pl p s).sumPrios = pl.sumPrios + max 1 (s.card : Int) ∧
    (saveProgram pl p s).accPrios = pl.accPrios ++ [pl.sumPrios + max 1 (s.card : Int)] ∧
    (saveProgram pl p s).progs = pl.progs ++ [p] ∧
    (∀ pl1 : ProgramsListV1 P,
      (saveProgramV1 pl1 p s).sumPrios = pl1.sumPrios +
        (if ∃ c ∈ s, ioUringLo ≤ c ∧ c ≤ ioUringHi then max 1 (s.card : Int) * 100000
         else max 1 (s.card : Int))) := by
  refine ⟨?_, ?_, rfl, ?_⟩
  · show pl.sumPrios + (if (s.card : Int) = 0 then 1 else (s.card : Int)) = _
    rw [floored_card_eq_max]
  · show pl.accPrios ++ [pl.sumPrios + (if (s.card : Int) = 0 then 1 else (s.card : Int))] = _
    rw [floored_card_eq_max]
  · intro pl1
    show pl1.sumPrios +
        (if decide (∃ c ∈ s, ioUringLo ≤ c ∧ c ≤ ioUringHi) = true
         then (if (s.card : Int) = 0 then 1 else (s.card : Int)) * 100000
         else (if (s.card : Int) = 0 then 1 else (s.card : Int))) = _
    rw [floored_card_eq_max]
    by_cases hio : ∃ c ∈ s, ioUringLo ≤ c ∧ c ≤ ioUringHi
    · rw [if_pos (by simpa using hio), if_pos hio]
    · rw [if_neg (by simpa using hio), if_neg hio]

/-- C1 (counterexample): in the earlier revision, a signal of size 1 inside
the io_uring region yields weight `100000`, not `max(1, 1) = 1`, so the
weight does depend on the target-region intersection. -/
theorem saveProgram_weight_counterexample :
    ¬ (saveProgramV1 (emptyPLV1 Nat) 0 {ioUringLo}).sumPrios
        = (emptyPLV1 Nat).sumPrios + max 1 (({ioUringLo} : SchedSignal).card : Int) := by
  decide

/-- C2: on a reachable scheduler with a non-empty corpus and valid random
draws, `ChooseProgram` returns the uniformly drawn protected program exactly
when the coin lands below the fixed 50 percent threshold and the protected
subset is non-empty; otherwise it returns the program at the first index
whose cumulative weight is at least the uniformly drawn `randVal` from
`[0, sumPrios]`. -/
theorem chooseProgram_selects (P : Type) (pl : ProgramsList P) (h : SchedReachable pl)
    (hne : pl.progs ≠ []) (randVal : Int) (coin uidx : Nat)
    (hr0 : 0 ≤ randVal) (hr1 : randVal ≤ pl.sumPrios)
    (hu : pl.ioUringProgs ≠ [] → uidx < pl.ioUringProgs.length) :
    randVal ≤ pl.accPrios.getD (searchIdx pl randVal) 0 ∧
    (∀ k, k < searchIdx pl randVal → pl.accPrios.getD k 0 < randVal) ∧
    (coin < 50 → pl.ioUringProgs ≠ [] →
      ∃ q, pl.ioUringProgs[uidx]? = some q ∧
        chooseProgram pl randVal coin uidx = ChooseResult.chosen q) ∧
    ((50 ≤ coin ∨ pl.ioUringProgs = []) →
      ∃ q, pl.progs[searchIdx pl randVal]? = some q ∧
        chooseProgram pl randVal coin uidx = ChooseResult.chosen q) := by
  obtain ⟨h1, h2, h3, h4, h5⟩ :=
    chooseProgram_spec pl (schedReachable_inv pl h) hne randVal coin uidx hr1 hu
  exact ⟨h2, h3, h5, h4⟩

/-- C2 (witness): a concrete application of `chooseProgram_selects`. -/
theorem chooseProgram_selects_w :
    (saveProgram (emptyPL Nat) 7 ∅).progs ≠ [] ∧
    (∃ q, (saveProgram (emptyPL Nat) 7 ∅).progs[searchIdx (saveProgram (emptyPL Nat) 7 ∅) 0]?
        = some q ∧
      chooseProgram (saveProgram (emptyPL Nat) 7 ∅) 0 60 0 = ChooseResult.chosen q) :=
  ⟨by decide,
   (chooseProgram_selects Nat (saveProgram (emptyPL Nat) 7 ∅)
      (SchedReachable.save (emptyPL Nat) 7 ∅ SchedReachable.empty) (by decide) 0 60 0
      (by decide) (by decide) (by decide)).2.2.2 (Or.inl (by decide))⟩

/-- C3: every event in the delta returned by `addRawMaxSignal` — and every
event whose record in `maxSignal` or `newSignal` changes — lies inside the
configured fs address range; a raw trace entirely outside the range
(including malformed or sentinel identifiers) is dropped silently, with no
error and no state change at all. -/
theorem ingest_scope_filter (c : Cover) (raw : List Nat) (prio : Nat) :
    (∀ e, ¬(fsLo ≤ e ∧ e ≤ fsHi) →
      (addRawMaxSignal c raw prio).1 e = none ∧
      (addRawMaxSignal c raw prio).2.maxSignal e = c.maxSignal e ∧
      (addRawMaxSignal c raw prio).2.newSignal e = c.newSignal e) ∧
    ((∀ e ∈ raw, ¬(fsLo ≤ e ∧ e ≤ fsHi)) → (addRawMaxSignal c raw prio).2 = c) := by
  constructor
  · intro e he
    have hnot : e ∉ filterFsSignal raw := by
      simp only [filterFsSignal, List.mem_filter, decide_eq_true_eq]
      intro hmem
      exact he hmem.2
    have hd : (addRawMaxSignal c raw prio).1 e = none := by
      rw [addRawMaxSignal_fst]
      simp [DiffRaw, hnot]
    refine ⟨hd, ?_, ?_⟩
    · rw [addRawMaxSignal_max, hd, mergePrio_none_right]
    · rw [addRawMaxSignal_new, hd, mergePrio_none_right]
  · intro hall
    have hfs : filterFsSignal raw = [] := by
      simp only [filterFsSignal, List.filter_eq_nil_iff, decide_eq_true_eq]
      exact hall
    show (addRawMaxSignal c raw prio).2 = c
    simp only [addRawMaxSignal, hfs]
    rfl

/-- C3 (witness): a concrete application of `ingest_scope_filter` on a
sentinel trace. -/
theorem ingest_scope_filter_w :
    (∀ e ∈ [(0 : Nat)], ¬(fsLo ≤ e ∧ e ≤ fsHi)) ∧
    (addRawMaxSignal initialCover [0] 1).2 = initialCover :=
  ⟨by decide, (ingest_scope_filter initialCover [0] 1).2 (by decide)⟩

/-- C4 (amended): calling `addRawMaxSignal` twice in a row with the same raw
trace and priority tag always yields an empty delta on the second call; the
first call yields a non-empty delta exactly when the filtered trace contains
an event not already known at a priority at least the tag. -/
theorem ingest_dedup (c : Cover) (raw : List Nat) (prio : Nat) :
    (∀ e, (addRawMaxSignal (addRawMaxSignal c raw prio).2 raw prio).1 e = none) ∧
    ((∃ e ∈ filterFsSignal raw, belowPrio c.maxSignal prio e = true) ↔
      ∃ e, (addRawMaxSignal c raw prio).1 e ≠ none) := by
  constructor
  · intro e
    rw [addRawMaxSignal_fst]
    simp only [DiffRaw]
    by_cases hm : e ∈ filterFsSignal raw
    · rw [if_pos hm]
      have hd1 : (addRawMaxSignal c raw prio).1 e
          = if belowPrio c.maxSignal prio e then some prio else none := by
        rw [addRawMaxSignal_fst]
        simp only [DiffRaw, if_pos hm]
      have hmax := addRawMaxSignal_max c raw prio e
      suffices h : belowPrio (addRawMaxSignal c raw prio).2.maxSignal prio e = false by
        rw [h]
        simp
      by_cases hb : belowPrio c.maxSignal prio e
      · rw [if_pos hb] at hd1
        rw [hd1] at hmax
        cases hc : c.maxSignal e with
        | none =>
          rw [hc] at hmax
          simp only [belowPrio, hmax, mergePrio]
          simp
        | some p =>
          rw [hc] at hmax
          simp only [belowPrio, hmax, mergePrio]
          simp

      · rw [if_neg hb] at hd1
        rw [hd1, mergePrio_none_right] at hmax
        simp only [belowPrio, hmax]
        simp only [belowPrio] at hb
        revert hb
        cases c.maxSignal e with
        | none => simp
        | some p => simp
    · rw [if_neg hm]
  · constructor
    · rintro ⟨e, hm, hb⟩
      refine ⟨e, ?_⟩
      rw [addRawMaxSignal_fst]
      simp only [DiffRaw, if_pos hm, hb, if_true]
      simp
    · rintro ⟨e, hne⟩
      rw [addRawMaxSignal_fst] at hne
      simp only [DiffRaw] at hne
      by_cases hm : e ∈ filterFsSignal raw
      · by_cases hb : belowPrio c.maxSignal prio e
        · exact ⟨e, hm, hb⟩
        · rw [if_pos hm, if_neg hb] at hne
          exact absurd rfl hne
      · rw [if_neg hm] at hne
        exact absurd rfl hne

/-- C4 (witness): a concrete application of `ingest_dedup` with an in-range
trace on the empty tracker: the first delta is non-empty, the second one is
empty. -/
theorem ingest_dedup_w :
    (addRawMaxSignal (addRawMaxSignal initialCover [fsLo] 1).2 [fsLo] 1).1 fsLo = none ∧
    (∃ e, (addRawMaxSignal initialCover [fsLo] 1).1 e ≠ none) :=
  ⟨(ingest_dedup initialCover [fsLo] 1).1 fsLo,
   (ingest_dedup initialCover [fsLo] 1).2.mp ⟨fsLo, by decide, by decide⟩⟩

/-- C4 (counterexample): on the empty tracker, ingesting the trace `[0]`
(a sentinel identifier outside the configured range) yields an *empty* delta
already on the first call, contradicting the claim that the first of two
identical calls always yields a non-empty delta. -/
theorem ingest_dedup_counterexample :
    (addRawMaxSignal initialCover [0] 1).1 = emptySignal := by
  rw [addRawMaxSignal_fst]
  have hfs : filterFsSignal [0] = [] := by decide
  rw [hfs]
  funext e
  simp [DiffRaw, emptySignal]

/-- C5: starting right after a drain, any sequence of `addRawMaxSignal` calls
followed by one `GrabSignalDelta` drains exactly the union of the deltas
returned by those calls — no more, no less — and leaves the pending set
empty, so each unit of new coverage is delivered by exactly one drain. -/
theorem drain_delta_partition (c : Cover) (ops : List (List Nat × Nat)) :
    (∀ e, (GrabSignalDelta (runIngests (GrabSignalDelta c).2 ops).2).1 e
        = mergeAll (runIngests (GrabSignalDelta c).2 ops).1 e) ∧
    (∀ e, (GrabSignalDelta (runIngests (GrabSignalDelta c).2 ops).2).2.newSignal e = none) := by
  constructor
  · intro e
    show (runIngests (GrabSignalDelta c).2 ops).2.newSignal e = _
    rw [runIngests_newSignal]
    exact mergePrio_none_left _
  · intro e
    rfl

/-- C6 (amended): `replace` wholesale-replaces `progs`, the cumulative-sum
sequence and `sumPrios` together, never partially; the protected subset,
however, is not taken from the replacement state — it stays exactly the
pre-replace one. -/
theorem replace_swaps_arrays {P : Type} (pl other : ProgramsList P) :
    (replacePL pl other).progs = other.progs ∧
    (replacePL pl other).accPrios = other.accPrios ∧
    (replacePL pl other).sumPrios = other.sumPrios ∧
    (replacePL pl other).ioUringProgs = pl.ioUringProgs :=
  ⟨rfl, rfl, rfl, rfl⟩

/-- C6 (counterexample): after replacing a state whose protected subset is
`[7]` with a state whose protected subset is empty, the protected subset is
still `[7]`, not that of the replacement state. -/
theorem replace_protected_counterexample :
    ¬ ((replacePL (⟨[1], [7], 1, [1]⟩ : ProgramsList Nat) ⟨[], [], 0, []⟩).ioUringProgs
        = (⟨[], [], 0, []⟩ : ProgramsList Nat).ioUringProgs) := by
  decide

/-- C7: in every tracker state reachable from the initial empty state by any
sequence of `AddMaxSignal`, `addRawMaxSignal` and `GrabSignalDelta`
operations, the pending set is a subset of the known set. -/
theorem pending_subset_known (ops : List CoverOp) (e : Nat) :
    ((applyCoverOps ops).newSignal e).isSome = true →
    ((applyCoverOps ops).maxSignal e).isSome = true :=
  foldl_stepCover_inv ops initialCover initialCover_inv e

/-- C7 (witness): a concrete application of `pending_subset_known` after one
in-range ingest. -/
theorem pending_subset_known_w :
    ((applyCoverOps [CoverOp.ingest [fsLo] 1]).newSignal fsLo).isSome = true ∧
    ((applyCoverOps [CoverOp.ingest [fsLo] 1]).maxSignal fsLo).isSome = true :=
  ⟨by decide, pending_subset_known [CoverOp.ingest [fsLo] 1] fsLo (by decide)⟩

/-- C8: after any sequence of `saveProgram` calls starting from the empty
scheduler, `accPrios` and `progs` have the same length, `accPrios` is
non-decreasing, and its last element equals `sumPrios` (with default `0` for
the empty sequence, where `sumPrios = 0`). -/
theorem admit_cumulative_invariant (P : Type) (l : List (P × SchedSignal)) :
    (admitAll (emptyPL P) l).accPrios.length = (admitAll (emptyPL P) l).progs.length ∧
    (admitAll (emptyPL P) l).accPrios.Sorted (· ≤ ·) ∧
    (admitAll (emptyPL P) l).accPrios.getLastD 0 = (admitAll (emptyPL P) l).sumPrios := by
  obtain ⟨h1, h2, h3, h4, h5⟩ := schedInv_admitAll l (emptyPL P) (schedInv_empty P)
  exact ⟨h1, h2, h4⟩

/-- C9: on every reachable scheduler state, for every valid random draw,
`ChooseProgram` never performs an out-of-bounds access (the binary-search
index is within `progs`, and the uniform protected draw is only taken when
the protected subset is non-empty), and it returns the nil sentinel exactly
when the corpus is empty. -/
theorem chooseProgram_total (P : Type) (pl : ProgramsList P) (h : SchedReachable pl)
    (randVal : Int) (coin uidx : Nat) (hr0 : 0 ≤ randVal) (hr1 : randVal ≤ pl.sumPrios)
    (hu : pl.ioUringProgs ≠ [] → uidx < pl.ioUringProgs.length) :
    chooseProgram pl randVal coin uidx ≠ ChooseResult.outOfBounds ∧
    (chooseProgram pl randVal coin uidx = ChooseResult.nilProg ↔ pl.progs = []) := by
  by_cases hne : pl.progs = []
  · have hL : pl.progs.length = 0 := by simp [hne]
    have hch : chooseProgram pl randVal coin uidx = ChooseResult.nilProg := by
      simp [chooseProgram, hL]
    rw [hch]
    exact ⟨by simp, by simp [hne]⟩
  · obtain ⟨h1, h2, h3, h4, h5⟩ :=
      chooseProgram_spec pl (schedReachable_inv pl h) hne randVal coin uidx hr1 hu
    have hch : ∃ q, chooseProgram pl randVal coin uidx = ChooseResult.chosen q := by
      by_cases hcoin : coin < 50
      · by_cases hio : pl.ioUringProgs = []
        · obtain ⟨q, hq1, hq2⟩ := h4 (Or.inr hio)
          exact ⟨q, hq2⟩
        · obtain ⟨q, hq1, hq2⟩ := h5 hcoin hio
          exact ⟨q, hq2⟩
      · obtain ⟨q, hq1, hq2⟩ := h4 (Or.inl (by omega))
        exact ⟨q, hq2⟩
    obtain ⟨q, hq⟩ := hch
    rw [hq]
    exact ⟨by simp, by simp [hne]⟩

/-- C9 (witness): a concrete application of `chooseProgram_total` on a
reachable one-program state with a non-empty protected subset. -/
theorem chooseProgram_total_w :
    (0 : Int) ≤ (saveProgram (emptyPL Nat) 5 {ioUringLo}).sumPrios ∧
    chooseProgram (saveProgram (emptyPL Nat) 5 {ioUringLo}) 0 0 0
        ≠ ChooseResult.outOfBounds :=
  ⟨by decide,
   (chooseProgram_total Nat (saveProgram (emptyPL Nat) 5 {ioUringLo})
      (SchedReachable.save (emptyPL Nat) 5 {ioUringLo} SchedReachable.empty) 0 0 0
      (by decide) (by decide) (by decide)).1⟩

/-- C10: if the main program list is empty, `ChooseProgram` returns nil even
when the protected subset is non-empty, and such a state is reachable:
`replace` overwrites `progs`, `accPrios` and `sumPrios` but leaves the
previously accumulated `ioUringProgs` in place. -/
theorem choose_nil_despite_protected :
    (∀ (P : Type) (pl : ProgramsList P) (randVal : Int) (coin uidx : Nat),
      pl.progs = [] → chooseProgram pl randVal coin uidx = ChooseResult.nilProg) ∧
    SchedReachable replacedPL ∧ replacedPL.progs = [] ∧ replacedPL.ioUringProgs ≠ [] := by
  refine ⟨?_, ?_, by decide, by decide⟩
  · intro P pl randVal coin uidx hpl
    have hL : pl.progs.length = 0 := by simp [hpl]
    simp [chooseProgram, hL]
  · exact SchedReachable.repl _ _
      (SchedReachable.save _ 5 {ioUringLo} SchedReachable.empty) SchedReachable.empty

/-- C10 (witness): a concrete application of `choose_nil_despite_protected`
on the replaced state, whose protected subset is non-empty. -/
theorem choose_nil_despite_protected_w :
    replacedPL.ioUringProgs ≠ [] ∧
    chooseProgram replacedPL 0 0 0 = ChooseResult.nilProg :=
  ⟨by decide, choose_nil_despite_protected.1 Nat replacedPL 0 0 0 (by decide)⟩
